import Mathlib

/-!
Shallow embedding of the autowordl solver (src/autowordl.py) together with
proofs about its scoring function, guess evaluation, best-guess search and
solver session.  Failure of a Python operation (an `IndexError` from an
out-of-range string index, a `ZeroDivisionError` from dividing by the length
of an empty list) is modelled by `Option`: `none` is a raised exception,
`some v` is a normal return of `v`.  A Python `None` value is modelled by an
inner `Option`.  Python floats are modelled by exact rationals.
-/

namespace Autowordl

/-- `lettercount[c] -= 1` on a `defaultdict(int)` modelled as a function. -/
def decr (cnt : Char → Int) (c : Char) : Char → Int :=
  fun x => if x = c then cnt x - 1 else cnt x

/-- The letter multiset of `answer` built by the first loop of `score`:
`lettercount = defaultdict(int); for letter in answer: lettercount[letter] += 1`. -/
def initCount (answer : List Char) : Char → Int :=
  answer.foldl (fun cnt letter => fun x => if x = letter then cnt x + 1 else cnt x)
    (fun _ => 0)

/-- First pass of `score` (exact matches), iterated over the index list:
`for ii in range(5): if guess[ii] == answer[ii]: result[ii] = guess[ii];
lettercount[answer[ii]] -= 1`.  An out-of-range index access returns `none`
(a Python `IndexError`). -/
def pass1 (guess answer : List Char) :
    List Nat → List Char → (Char → Int) → Option (List Char × (Char → Int))
  | [], result, cnt => some (result, cnt)
  | ii :: rest, result, cnt =>
    match guess.get? ii, answer.get? ii with
    | some gi, some ai =>
      if gi = ai then pass1 guess answer rest (result.set ii gi) (decr cnt ai)
      else pass1 guess answer rest result cnt
    | some _, none => none
    | none, some _ => none
    | none, none => none

/-- Second pass of `score` (right letters in wrong position):
`for ii in range(5): if lettercount[guess[ii]] > 0: result[ii] =
guess[ii].lower(); lettercount[guess[ii]] -= 1`.  Note the source has no
check that position `ii` is still unmarked. -/
def pass2 (guess : List Char) :
    List Nat → List Char → (Char → Int) → Option (List Char × (Char → Int))
  | [], result, cnt => some (result, cnt)
  | ii :: rest, result, cnt =>
    match guess.get? ii with
    | some gi =>
      if cnt gi > 0 then pass2 guess rest (result.set ii gi.toLower) (decr cnt gi)
      else pass2 guess rest result cnt
    | none => none

/-- `score(guess, answer)`: result starts as `["."]*5`, then the two passes
run over `range(5)`.  `none` models the `IndexError` raised when either word
is shorter than five characters; otherwise the five-symbol pattern is
returned (uppercase = exact match, lowercase = present in wrong position,
`'.'` = absent). -/
def score (guess answer : List Char) : Option (List Char) :=
  match pass1 guess answer (List.range 5) (List.replicate 5 '.') (initCount answer) with
  | none => none
  | some (r1, c1) =>
    match pass2 guess (List.range 5) r1 c1 with
    | none => none
    | some (r2, _) => some r2

/-- Words handled by the solver: the dictionary loader (`read_word_list`)
only ever supplies five-letter words, so the solver level of the embedding
works on length-five character lists. -/
abbrev Word := { l : List Char // l.length = 5 }

/-- `score` specialised to five-letter words, where it always returns
normally (proved in `score_eq_score5` below). -/
def score5 (guess answer : Word) : List Char :=
  (score guess.1 answer.1).getD (List.replicate 5 '.')

/-- `word_still_feasible(possible_answer, guess, result)`:
`score(guess, possible_answer) == result`. -/
def word_still_feasible (possible_answer guess : Word) (result : List Char) : Bool :=
  score5 guess possible_answer == result

/-- `still_feasible(feasible_words, guess, result)`: the list comprehension
keeping the answers consistent with the observed result. -/
def still_feasible (feasible_words : List Word) (guess : Word) (result : List Char) :
    List Word :=
  feasible_words.filter (fun answer => word_still_feasible answer guess result)

/-- `num_still_feasible(feasible_words, guess, result)`. -/
def num_still_feasible (feasible_words : List Word) (guess : Word)
    (result : List Char) : Nat :=
  (still_feasible feasible_words guess result).length

/-- `evaluate_guess(guess, feasible_words)`: the accumulated integer sum is
divided by `len(feasible_words)` at the end; `none` models the
`ZeroDivisionError` raised when the feasible list is empty. -/
def evaluate_guess (guess : Word) (feasible_words : List Word) : Option Rat :=
  let s := feasible_words.foldl
    (fun acc answer => acc + num_still_feasible feasible_words guess (score5 guess answer)) 0
  if feasible_words.length = 0 then none
  else some ((s : Rat) / (feasible_words.length : Rat))

/-- The value produced by `evaluate_guess` on a non-empty feasible list
(the contract `expected_remaining` of the spec). -/
def expected_remaining (guess : Word) (feasible_words : List Word) : Rat :=
  ((feasible_words.foldl
    (fun acc answer => acc + num_still_feasible feasible_words guess (score5 guess answer))
    0 : Nat) : Rat) / (feasible_words.length : Rat)

/-- The comparison `expected_num_remaining < best_score` where `best_score`
starts as `float('inf')` (modelled by `none`). -/
def ltScore (e : Rat) (best : Option Rat) : Bool :=
  match best with
  | none => true
  | some q => decide (e < q)

/-- One iteration of the `best_guess` loop.  State: the running
`(best_guess, best_score)` pair, initially `(None, inf)`.  The `tqdm`
progress bar and the `print` of improvements are pure observation and are
not part of the state. -/
def bgStep (feasible_words : List Word) (st : Option Word × Option Rat)
    (guess : Word) : Option (Option Word × Option Rat) :=
  match evaluate_guess guess feasible_words with
  | none => none
  | some e => if ltScore e st.2 then some (some guess, some e) else some st

/-- `best_guess(reasonable_guesses, feasible_words)`: iterate the pool in
order, keep the running minimum, return the final `best_guess` variable.
The outer `Option` is the exception channel (a `ZeroDivisionError` escaping
from `evaluate_guess`); the inner `Option Word` is the returned value, which
is Python `None` when no guess ever improved on `inf`. -/
def best_guess (reasonable_guesses feasible_words : List Word) :
    Option (Option Word) :=
  match reasonable_guesses.foldlM (bgStep feasible_words) (none, none) with
  | none => none
  | some st => some st.1

/-- The exception-free body of one `best_guess` iteration, used to reason
about the loop when the feasible list is non-empty. -/
def pureStep (feasible_words : List Word) (st : Option Word × Option Rat)
    (guess : Word) : Option Word × Option Rat :=
  if ltScore (expected_remaining guess feasible_words) st.2 then
    (some guess, some (expected_remaining guess feasible_words))
  else st

/-- `reasonable_guesses(words, guess, result)`: for every position scored
`'.'`, drop all words containing that guess letter.  `none` models the
`IndexError` when `result` is shorter than five symbols. -/
def reasonable_guesses (words : List Word) (guess : Word) (result : List Char) :
    Option (List Word) :=
  (List.range 5).foldlM
    (fun ws ii =>
      match result.get? ii with
      | none => none
      | some r =>
        if r = '.' then
          match guess.1.get? ii with
          | none => none
          | some gi => some (ws.filter (fun word => !(word.1.contains gi.toUpper)))
        else some ws)
    words

/-- The state of the `WordlSolver` class. -/
structure WordlSolver where
  words : List Word
  feasible : List Word
  guesses : List Word
  next_guess : Option Word

/-- `WordlSolver.__init__(words)` (also the body of `reset`). -/
def WordlSolver.init (ws : List Word) : WordlSolver :=
  { words := ws, feasible := ws, guesses := ws
    next_guess := some ⟨['S', 'L', 'A', 'N', 'T'], rfl⟩ }

/-- `WordlSolver.apply_result(guess, result)`: filter the feasible set, then
prune the guess pool.  The printed feasible count and list are observation
only. -/
def WordlSolver.apply_result (s : WordlSolver) (guess : Word) (result : List Char) :
    Option WordlSolver :=
  match reasonable_guesses s.guesses guess result with
  | none => none
  | some gs =>
    some { s with feasible := still_feasible s.feasible guess result, guesses := gs }

/-- `WordlSolver.think()`: return the sole feasible word when exactly one
remains, otherwise run `best_guess`; store and return the recommendation. -/
def WordlSolver.think (s : WordlSolver) : Option (Option Word × WordlSolver) :=
  if s.feasible.length = 1 then
    some (s.feasible.get? 0, { s with next_guess := s.feasible.get? 0 })
  else
    match best_guess s.guesses s.feasible with
    | none => none
    | some guess => some (guess, { s with next_guess := guess })

/-- The canonical alphabet of dictionary words (`read_word_list` upper-cases
five-letter alphabetic words). -/
def upperAlphabet : List Char :=
  ['A', 'B', 'C', 'D', 'E', 'F', 'G', 'H', 'I', 'J', 'K', 'L', 'M',
   'N', 'O', 'P', 'Q', 'R', 'S', 'T', 'U', 'V', 'W', 'X', 'Y', 'Z']

/-- Number of positions of a pattern `r` that are marked (not `'.'`) and
whose guess letter is `ℓ`. -/
def markedCount (g r : List Char) (ℓ : Char) : Nat :=
  (List.range 5).countP
    (fun i => (decide (r.get? i ≠ some ('.' : Char))) && (g.get? i == some ℓ))

/-- Concrete five-letter words used to instantiate theorems. -/
def wA : Word := ⟨['A', 'A', 'A', 'A', 'A'], rfl⟩

def wB : Word := ⟨['B', 'B', 'B', 'B', 'B'], rfl⟩

def wC : Word := ⟨['C', 'A', 'B', 'L', 'E'], rfl⟩

/-- A session state whose feasible set is the single word `wA`. -/
def sSolo : WordlSolver :=
  { words := [wA, wB], feasible := [wA], guesses := [wA, wB], next_guess := none }

/-- A session state in the `Contradiction` shape: empty feasible set,
non-empty guess pool. -/
def sContra : WordlSolver :=
  { words := [wA, wB], feasible := [], guesses := [wB], next_guess := none }

/-- A session state one `apply_result` away from a contradiction. -/
def sPre : WordlSolver :=
  { words := [wA], feasible := [wA], guesses := [wA], next_guess := none }

/-- The state produced by applying an all-exact `BBBBB` result to `sPre`. -/
def sPost : WordlSolver :=
  { words := [wA], feasible := [], guesses := [wA], next_guess := none }

/-! ### Success of the two passes -/

theorem pass1_isSome_iff (guess answer : List Char) (l : List Nat) :
    ∀ (r : List Char) (cnt : Char → Int),
    (pass1 guess answer l r cnt).isSome ↔
      ∀ i ∈ l, i < guess.length ∧ i < answer.length := by
  induction l with
  | nil => intro r cnt; simp [pass1]
  | cons ii rest ih =>
    intro r cnt
    cases hg : guess.get? ii with
    | none =>
      have hlen : guess.length ≤ ii := List.get?_eq_none.mp hg
      cases ha : answer.get? ii with
      | none =>
        simp only [pass1, hg, ha, Option.isSome_none, Bool.false_eq_true, false_iff]
        intro h
        exact absurd ((h ii (by simp)).1) (by omega)
      | some ai =>
        simp only [pass1, hg, ha, Option.isSome_none, Bool.false_eq_true, false_iff]
        intro h
        exact absurd ((h ii (by simp)).1) (by omega)
    | some gi =>
      have hgl : ii < guess.length := by
        rcases List.get?_eq_some.mp hg with ⟨h, _⟩; exact h
      cases ha : answer.get? ii with
      | none =>
        have hlen : answer.length ≤ ii := List.get?_eq_none.mp ha
        simp only [pass1, hg, ha, Option.isSome_none, Bool.false_eq_true, false_iff]
        intro h
        exact absurd ((h ii (by simp)).2) (by omega)
      | some ai =>
        have hal : ii < answer.length := by
          rcases List.get?_eq_some.mp ha with ⟨h, _⟩; exact h
        by_cases hei : gi = ai
        · simp only [pass1, hg, ha, if_pos hei, ih]
          constructor
          · intro h
            intro i hi
            rcases List.mem_cons.mp hi with h0 | h0
            · subst h0; exact ⟨hgl, hal⟩
            · exact h i h0
          · intro h i hi
            exact h i (List.mem_cons_of_mem _ hi)
        · simp only [pass1, hg, ha, if_neg hei, ih]
          constructor
          · intro h i hi
            rcases List.mem_cons.mp hi with h0 | h0
            · subst h0; exact ⟨hgl, hal⟩
            · exact h i h0
          · intro h i hi
            exact h i (List.mem_cons_of_mem _ hi)

theorem pass2_isSome_iff (guess : List Char) (l : List Nat) :
    ∀ (r : List Char) (cnt : Char → Int),
    (pass2 guess l r cnt).isSome ↔ ∀ i ∈ l, i < guess.length := by
  induction l with
  | nil => intro r cnt; simp [pass2]
  | cons ii rest ih =>
    intro r cnt
    cases hg : guess.get? ii with
    | none =>
      have hlen : guess.length ≤ ii := List.get?_eq_none.mp hg
      simp only [pass2, hg, Option.isSome_none, Bool.false_eq_true, false_iff]
      intro h
      exact absurd (h ii (by simp)) (by omega)
    | some gi =>
      have hgl : ii < guess.length := by
        rcases List.get?_eq_some.mp hg with ⟨h, _⟩; exact h
      by_cases hpos : cnt gi > 0
      · simp only [pass2, hg, if_pos hpos, ih]
        constructor
        · intro h i hi
          rcases List.mem_cons.mp hi with h0 | h0
          · subst h0; exact hgl
          · exact h i h0
        · intro h i hi
          exact h i (List.mem_cons_of_mem _ hi)
      · simp only [pass2, hg, if_neg hpos, ih]
        constructor
        · intro h i hi
          rcases List.mem_cons.mp hi with h0 | h0
          · subst h0; exact hgl
          · exact h i h0
        · intro h i hi
          exact h i (List.mem_cons_of_mem _ hi)

/-- `score` returns normally exactly when both inputs reach length five:
it never validates the lengths, it merely indexes positions `0..4`. -/
theorem score_isSome_iff (guess answer : List Char) :
    (score guess answer).isSome ↔ 5 ≤ guess.length ∧ 5 ≤ answer.length := by
  constructor
  · intro h
    cases h1 : pass1 guess answer (List.range 5) (List.replicate 5 '.') (initCount answer) with
    | none => rw [score, h1] at h; simp at h
    | some st =>
      have h1s : (pass1 guess answer (List.range 5) (List.replicate 5 '.')
          (initCount answer)).isSome := by rw [h1]; rfl
      have hb := (pass1_isSome_iff guess answer (List.range 5) _ _).mp h1s
      have h4 := hb 4 (by simp)
      exact ⟨by omega, by omega⟩
  · intro ⟨hg, ha⟩
    have h1s : (pass1 guess answer (List.range 5) (List.replicate 5 '.')
        (initCount answer)).isSome := by
      rw [pass1_isSome_iff]
      intro i hi
      have : i < 5 := List.mem_range.mp hi
      exact ⟨by omega, by omega⟩
    cases h1 : pass1 guess answer (List.range 5) (List.replicate 5 '.') (initCount answer) with
    | none => rw [h1] at h1s; simp at h1s
    | some st =>
      obtain ⟨r1, c1⟩ := st
      have h2s : (pass2 guess (List.range 5) r1 c1).isSome := by
        rw [pass2_isSome_iff]
        intro i hi
        have : i < 5 := List.mem_range.mp hi
        omega
      cases h2 : pass2 guess (List.range 5) r1 c1 with
      | none => rw [h2] at h2s; simp at h2s
      | some st2 =>
        obtain ⟨r2, c2⟩ := st2
        rw [score, h1]
        simp only [h2, Option.isSome_some]

/-- On five-letter words `score` returns normally with value `score5`. -/
theorem score_eq_score5 (guess answer : Word) :
    score guess.1 answer.1 = some (score5 guess answer) := by
  have h : (score guess.1 answer.1).isSome := by
    rw [score_isSome_iff]
    constructor
    · rw [guess.2]
    · rw [answer.2]
  cases hs : score guess.1 answer.1 with
  | none => rw [hs] at h; simp at h
  | some v => rw [score5, hs]; rfl

/-! ### Behaviour of `best_guess` and `think` on degenerate states -/

/-- With a non-empty guess pool and an empty feasible list the very first
`evaluate_guess` call divides by zero, and the exception escapes from
`best_guess`. -/
theorem best_guess_empty_feasible (pool : List Word) (hp : pool ≠ []) :
    best_guess pool [] = none := by
  obtain ⟨g, rest, rfl⟩ := List.exists_cons_of_ne_nil hp
  unfold best_guess
  rw [List.foldlM_cons]
  rw [show bgStep [] (none, none) g = none from rfl]
  rfl

/-! ### Claims -/

/-- Claim C1 (code bug): the second pass of `score` carries no check that a
position is still unmarked, so an exact match whose letter occurs again in
the answer is demoted.  For guess `DRINK` against answer `DANDY`, position 0
has `guess[0] == answer[0] == 'D'`, yet the returned pattern carries the
lowercase (wrong-position) mark `'d'` there, not the exact-match mark `'D'`:
the code contradicts its own test `test_multiple`. -/
theorem C1_exact_match_demoted :
    ['D', 'R', 'I', 'N', 'K'].get? 0 = ['D', 'A', 'N', 'D', 'Y'].get? 0 ∧
    (score ['D', 'R', 'I', 'N', 'K'] ['D', 'A', 'N', 'D', 'Y']).map (fun p => p.get? 0) =
      some (some 'd') ∧
    'd' ≠ 'D' :=
  ⟨rfl, rfl, by decide⟩

/-- Claim C2 (code bug): `score("DRINK","DANDY")` evaluates to `"d..n."`,
not the `"D..n."` required by the claim and by the repository's own unit
test `TestScore.test_multiple`. -/
theorem C2_drink_dandy_not_test_value :
    score ['D', 'R', 'I', 'N', 'K'] ['D', 'A', 'N', 'D', 'Y'] =
      some ['d', '.', '.', 'n', '.'] ∧
    score ['D', 'R', 'I', 'N', 'K'] ['D', 'A', 'N', 'D', 'Y'] ≠
      some ['D', '.', '.', 'n', '.'] :=
  ⟨rfl, by decide⟩

/-- Claim C3 (counterexample): `best_guess` over an empty pool does not
raise; the loop never runs and the function returns its initial
`best_guess = None` value normally. -/
theorem C3_cex_empty_pool_silent :
    best_guess [] [wA] = some none :=
  rfl

/-- Claim C3 (amended): for every feasible list, `best_guess` on an empty
guess pool returns Python `None` as an ordinary value; no `EmptyPool` error
exists anywhere in the code. -/
theorem C3_empty_pool_returns_none (feasible : List Word) :
    best_guess [] feasible = some none :=
  rfl

/-- Claim C4 (counterexample): with an empty feasible set and the non-empty
guess pool `[wB]`, `think()` dies with the `ZeroDivisionError` raised inside
`evaluate_guess` (the `none` produced by `evaluate_guess wB []`), not with
any `FeedbackInconsistency`; and an `apply_result` that empties the feasible
set returns normally. -/
theorem C4_cex_contradiction :
    sContra.feasible = [] ∧
    sContra.think = none ∧
    evaluate_guess wB [] = none ∧
    (sPre.apply_result wB ['B', 'B', 'B', 'B', 'B']).map WordlSolver.feasible =
      some [] :=
  ⟨rfl, rfl, rfl, rfl⟩

/-- Claim C4 (amended): on an empty feasible set `think()` fails, but with
the division-by-zero error escaping from `evaluate_guess` (there is no
`FeedbackInconsistency` anywhere in the code), and `apply_result` never
signals an empty result: it returns normally with the filtered (possibly
empty) feasible list stored in the session. -/
theorem C4_contradiction_behavior :
    (∀ s : WordlSolver, s.feasible = [] → s.guesses ≠ [] → s.think = none) ∧
    (∀ (s : WordlSolver) (g : Word) (r : List Char) (s' : WordlSolver),
      s.apply_result g r = some s' →
      s'.feasible = still_feasible s.feasible g r) := by
  constructor
  · intro s h hg
    unfold WordlSolver.think
    rw [h]
    simp only [List.length_nil]
    rw [if_neg (by omega : ¬ (0 : Nat) = 1), best_guess_empty_feasible s.guesses hg]
  · intro s g r s' h
    unfold WordlSolver.apply_result at h
    cases hr : reasonable_guesses s.guesses g r with
    | none => rw [hr] at h; simp at h
    | some gs =>
      rw [hr] at h
      simp only [Option.some.injEq] at h
      rw [← h]

/-- Witness for C4: the amended theorem applied to the concrete states
`sContra` (for `think`) and `sPre` (for `apply_result`). -/
theorem C4_witness :
    sContra.think = none ∧
    sPost.feasible = still_feasible sPre.feasible wB ['B', 'B', 'B', 'B', 'B'] :=
  ⟨C4_contradiction_behavior.1 sContra rfl (List.cons_ne_nil wB []),
   C4_contradiction_behavior.2 sPre wB ['B', 'B', 'B', 'B', 'B'] sPost rfl⟩

/-- Claim C8: whenever the feasible set is exactly one word, `think()`
returns that word and stores it, whatever the guess pool contains — the
result never consults `best_guess` (the `guesses` field is arbitrary here
and the result does not depend on it). -/
theorem C8_think_determined (s : WordlSolver) (w : Word) (h : s.feasible = [w]) :
    s.think = some (some w, { s with next_guess := some w }) := by
  unfold WordlSolver.think
  rw [h]
  rfl

/-- Witness for C8 at the concrete session `sSolo`. -/
theorem C8_witness :
    sSolo.feasible = [wA] ∧
    sSolo.think = some (some wA, { sSolo with next_guess := some wA }) :=
  ⟨rfl, C8_think_determined sSolo wA rfl⟩

/-- Claim C9 (counterexample): a guess of length six against an answer of
length five is not rejected — `score` silently returns a five-symbol
pattern.  There is no length precondition and no `InvalidInput` error in the
code. -/
theorem C9_cex_mismatched_silent :
    score ['A', 'B', 'C', 'D', 'E', 'F'] ['A', 'B', 'C', 'D', 'E'] =
      some ['A', 'B', 'C', 'D', 'E'] ∧
    ['A', 'B', 'C', 'D', 'E', 'F'].length ≠ ['A', 'B', 'C', 'D', 'E'].length :=
  ⟨rfl, by decide⟩

/-- Claim C9 (amended): `score` performs no length validation at all: it
indexes only positions `0..4`, returns a pattern normally whenever both
inputs have length at least five — even when the lengths differ — and
otherwise fails with an `IndexError` (`none`), never with an
`InvalidInput`. -/
theorem C9_no_length_precondition (guess answer : List Char) :
    (score guess answer).isSome ↔ 5 ≤ guess.length ∧ 5 ≤ answer.length :=
  score_isSome_iff guess answer

/-! ### The guess evaluator -/

theorem foldl_add_eq_sum (l : List Word) (t : Word → Nat) :
    ∀ n : Nat, l.foldl (fun acc x => acc + t x) n = n + (l.map t).sum := by
  induction l with
  | nil => intro n; simp
  | cons x xs ih =>
    intro n
    rw [List.foldl_cons, ih, List.map_cons, List.sum_cons]
    omega

theorem num_still_feasible_countP (f : List Word) (g : Word) (r : List Char) :
    num_still_feasible f g r = f.countP (fun w => score5 g w == r) := by
  unfold num_still_feasible still_feasible word_still_feasible
  exact (List.countP_eq_length_filter _ _).symm

/-- On a non-empty feasible list `evaluate_guess` returns normally with the
value `expected_remaining`. -/
theorem evaluate_guess_eq (g : Word) (f : List Word) (hf : f ≠ []) :
    evaluate_guess g f = some (expected_remaining g f) := by
  unfold evaluate_guess expected_remaining
  rw [if_neg]
  intro h
  exact hf (List.length_eq_zero.mp h)

theorem length_le_sum_of_one_le (l : List Word) (t : Word → Nat)
    (h : ∀ x ∈ l, 1 ≤ t x) : l.length ≤ (l.map t).sum := by
  induction l with
  | nil => simp
  | cons x xs ih =>
    rw [List.map_cons, List.sum_cons, List.length_cons]
    have h1 := h x (List.mem_cons_self x xs)
    have h2 := ih (fun y hy => h y (List.mem_cons_of_mem _ hy))
    omega

/-- Claim C5: the guess evaluator returns exactly the average, over the
feasible answers, of the number of feasible words mapped by `score` to the
same pattern as that answer. -/
theorem C5_evaluate_guess_formula (g : Word) (f : List Word) (hf : f ≠ []) :
    evaluate_guess g f =
      some ((((f.map (fun answer =>
          f.countP (fun w => score5 g w == score5 g answer))).sum : Nat) : Rat) /
        (f.length : Rat)) := by
  rw [evaluate_guess_eq g f hf]
  unfold expected_remaining
  rw [foldl_add_eq_sum f (fun answer => num_still_feasible f g (score5 g answer)) 0,
    Nat.zero_add]
  have ht : (fun answer => num_still_feasible f g (score5 g answer)) =
      (fun answer => f.countP (fun w => score5 g w == score5 g answer)) :=
    funext fun answer => num_still_feasible_countP f g (score5 g answer)
  rw [ht]

/-- Witness for C5 at a concrete singleton feasible list. -/
theorem C5_witness :
    evaluate_guess wA [wA] =
      some (((([wA].map (fun answer =>
          [wA].countP (fun w => score5 wA w == score5 wA answer))).sum : Nat) : Rat) /
        (([wA].length : Nat) : Rat)) :=
  C5_evaluate_guess_formula wA [wA] (List.cons_ne_nil wA [])

/-- Claim C10: on any non-empty feasible list the evaluator's value is at
least one, because every answer is consistent with its own feedback. -/
theorem C10_expected_at_least_one (g : Word) (f : List Word) (hf : f ≠ []) :
    ∃ q : Rat, evaluate_guess g f = some q ∧ 1 ≤ q := by
  refine ⟨expected_remaining g f, evaluate_guess_eq g f hf, ?_⟩
  unfold expected_remaining
  rw [foldl_add_eq_sum f (fun answer => num_still_feasible f g (score5 g answer)) 0,
    Nat.zero_add]
  have hlen : 0 < f.length := List.length_pos.mpr hf
  rw [one_le_div (by exact_mod_cast hlen : (0 : Rat) < (f.length : Rat))]
  have hsum : f.length ≤
      (f.map (fun answer => num_still_feasible f g (score5 g answer))).sum := by
    apply length_le_sum_of_one_le
    intro answer ha
    rw [num_still_feasible_countP]
    have : 0 < f.countP (fun w => score5 g w == score5 g answer) :=
      List.countP_pos_iff.mpr ⟨answer, ha, by simp⟩
    omega
  exact_mod_cast hsum

/-- Witness for C10 at a concrete two-word feasible list. -/
theorem C10_witness :
    ∃ q : Rat, evaluate_guess wB [wB, wA] = some q ∧ 1 ≤ q :=
  C10_expected_at_least_one wB [wB, wA] (List.cons_ne_nil wB [wA])

/-! ### The best-guess search -/

/-- On a non-empty feasible list one loop iteration never raises. -/
theorem bgStep_eq_pureStep (f : List Word) (hf : f ≠ [])
    (st : Option Word × Option Rat) (g : Word) :
    bgStep f st g = some (pureStep f st g) := by
  unfold bgStep pureStep
  rw [evaluate_guess_eq g f hf]
  by_cases h : ltScore (expected_remaining g f) st.2 = true
  · simp [h]
  · simp [h]

theorem foldlM_eq_foldl (f : List Word) (hf : f ≠ []) :
    ∀ (l : List Word) (st : Option Word × Option Rat),
      List.foldlM (bgStep f) st l = some (List.foldl (pureStep f) st l) := by
  intro l
  induction l with
  | nil => intro st; rfl
  | cons g rest ih =>
    intro st
    rw [List.foldlM_cons, bgStep_eq_pureStep f hf st g]
    rw [show ((some (pureStep f st g) >>= fun s => List.foldlM (bgStep f) s rest :
        Option (Option Word × Option Rat)) =
        List.foldlM (bgStep f) (pureStep f st g) rest) from rfl]
    rw [ih (pureStep f st g), List.foldl_cons]

/-- Running the loop body from a concrete best pair `(w, q)` either leaves
the pair unchanged (and then `q` is a lower bound for every remaining
score), or stops at the first strict improver that is also a global
minimum of the remainder. -/
theorem bg_fold_argmin (f : List Word) :
    ∀ (l : List Word) (w : Word) (q : Rat),
      (List.foldl (pureStep f) (some w, some q) l = (some w, some q) ∧
        ∀ (j : Nat) (hj : j < l.length), q ≤ expected_remaining (l.get ⟨j, hj⟩) f) ∨
      (∃ (i : Nat) (hi : i < l.length),
        List.foldl (pureStep f) (some w, some q) l =
          (some (l.get ⟨i, hi⟩), some (expected_remaining (l.get ⟨i, hi⟩) f)) ∧
        expected_remaining (l.get ⟨i, hi⟩) f < q ∧
        (∀ (j : Nat) (hj : j < l.length),
          expected_remaining (l.get ⟨i, hi⟩) f ≤ expected_remaining (l.get ⟨j, hj⟩) f) ∧
        (∀ (j : Nat) (hj : j < i),
          expected_remaining (l.get ⟨i, hi⟩) f <
            expected_remaining (l.get ⟨j, Nat.lt_trans hj hi⟩) f)) := by
  intro l
  induction l with
  | nil =>
    intro w q
    left
    exact ⟨rfl, fun j hj => absurd hj (Nat.not_lt_zero j)⟩
  | cons g rest ih =>
    intro w q
    rw [List.foldl_cons]
    by_cases hlt : expected_remaining g f < q
    · have hstep : pureStep f (some w, some q) g =
          (some g, some (expected_remaining g f)) := by
        simp [pureStep, ltScore, hlt]
      rw [hstep]
      rcases ih g (expected_remaining g f) with ⟨heq, hall⟩ |
        ⟨i, hi, heq, hlt2, hmin, hstrict⟩
      · right
        refine ⟨0, Nat.succ_pos _, heq, hlt, ?_, ?_⟩
        · intro j hj
          cases j with
          | zero => exact le_refl _
          | succ j' => exact hall j' (Nat.lt_of_succ_lt_succ hj)
        · intro j hj
          exact absurd hj (Nat.not_lt_zero j)
      · right
        refine ⟨i + 1, Nat.succ_lt_succ hi, heq, lt_trans hlt2 hlt, ?_, ?_⟩
        · intro j hj
          cases j with
          | zero => exact le_of_lt hlt2
          | succ j' => exact hmin j' (Nat.lt_of_succ_lt_succ hj)
        · intro j hj
          cases j with
          | zero => exact hlt2
          | succ j' => exact hstrict j' (Nat.lt_of_succ_lt_succ hj)
    · have hstep : pureStep f (some w, some q) g = (some w, some q) := by
        simp [pureStep, ltScore, hlt]
      rw [hstep]
      rcases ih w q with ⟨heq, hall⟩ | ⟨i, hi, heq, hlt2, hmin, hstrict⟩
      · left
        refine ⟨heq, ?_⟩
        intro j hj
        cases j with
        | zero => exact not_lt.mp hlt
        | succ j' => exact hall j' (Nat.lt_of_succ_lt_succ hj)
      · right
        refine ⟨i + 1, Nat.succ_lt_succ hi, heq, hlt2, ?_, ?_⟩
        · intro j hj
          cases j with
          | zero => exact le_of_lt (lt_of_lt_of_le hlt2 (not_lt.mp hlt))
          | succ j' => exact hmin j' (Nat.lt_of_succ_lt_succ hj)
        · intro j hj
          cases j with
          | zero => exact lt_of_lt_of_le hlt2 (not_lt.mp hlt)
          | succ j' => exact hstrict j' (Nat.lt_of_succ_lt_succ hj)

/-- Claim C6: on a non-empty pool and non-empty feasible list, `best_guess`
returns the first pool element attaining the minimal expected-remaining
score: its score is a lower bound for the whole pool, and every earlier
pool element scores strictly worse (the running minimum is only updated on
strict improvement). -/
theorem C6_best_guess_first_argmin (pool f : List Word) (hp : pool ≠ [])
    (hf : f ≠ []) :
    ∃ (i : Nat) (hi : i < pool.length),
      best_guess pool f = some (some (pool.get ⟨i, hi⟩)) ∧
      (∀ (j : Nat) (hj : j < pool.length),
        expected_remaining (pool.get ⟨i, hi⟩) f ≤
          expected_remaining (pool.get ⟨j, hj⟩) f) ∧
      (∀ (j : Nat) (hj : j < i),
        expected_remaining (pool.get ⟨i, hi⟩) f <
          expected_remaining (pool.get ⟨j, Nat.lt_trans hj hi⟩) f) := by
  obtain ⟨g, rest, rfl⟩ := List.exists_cons_of_ne_nil hp
  unfold best_guess
  rw [foldlM_eq_foldl f hf (g :: rest) (none, none), List.foldl_cons]
  have hstep : pureStep f (none, none) g = (some g, some (expected_remaining g f)) := by
    simp [pureStep, ltScore]
  rw [hstep]
  rcases bg_fold_argmin f rest g (expected_remaining g f) with ⟨heq, hall⟩ |
    ⟨i, hi, heq, hlt2, hmin, hstrict⟩
  · refine ⟨0, Nat.succ_pos _, ?_, ?_, ?_⟩
    · rw [heq]
      rfl
    · intro j hj
      cases j with
      | zero => exact le_refl _
      | succ j' => exact hall j' (Nat.lt_of_succ_lt_succ hj)
    · intro j hj
      exact absurd hj (Nat.not_lt_zero j)
  · refine ⟨i + 1, Nat.succ_lt_succ hi, ?_, ?_, ?_⟩
    · rw [heq]
      rfl
    · intro j hj
      cases j with
      | zero => exact le_of_lt hlt2
      | succ j' => exact hmin j' (Nat.lt_of_succ_lt_succ hj)
    · intro j hj
      cases j with
      | zero => exact hlt2
      | succ j' => exact hstrict j' (Nat.lt_of_succ_lt_succ hj)

/-- Witness for C6 at a concrete pool and feasible list. -/
theorem C6_witness :
    ∃ (i : Nat) (hi : i < [wC, wA].length),
      best_guess [wC, wA] [wA] = some (some ([wC, wA].get ⟨i, hi⟩)) ∧
      (∀ (j : Nat) (hj : j < [wC, wA].length),
        expected_remaining ([wC, wA].get ⟨i, hi⟩) [wA] ≤
          expected_remaining ([wC, wA].get ⟨j, hj⟩) [wA]) ∧
      (∀ (j : Nat) (hj : j < i),
        expected_remaining ([wC, wA].get ⟨i, hi⟩) [wA] <
          expected_remaining ([wC, wA].get ⟨j, Nat.lt_trans hj hi⟩) [wA]) :=
  C6_best_guess_first_argmin [wC, wA] [wA] (List.cons_ne_nil wC [wA])
    (List.cons_ne_nil wA [])

/-! ### Letter-count conservation -/

theorem bool_and_parts {x y : Bool} (h : (x && y) = true) : x = true ∧ y = true := by
  rcases x <;> rcases y <;> simp_all

theorem bool_or_parts {x y : Bool} (h : (x || y) = true) : x = true ∨ y = true := by
  rcases x <;> rcases y <;> simp_all

theorem initCount_foldl (ℓ : Char) :
    ∀ (ans : List Char) (f : Char → Int),
      (ans.foldl (fun cnt letter => fun x => if x = letter then cnt x + 1 else cnt x) f) ℓ =
        f ℓ + (ans.count ℓ : Int) := by
  intro ans
  induction ans with
  | nil => intro f; simp
  | cons c t ih =>
    intro f
    rw [List.foldl_cons, ih, List.count_cons]
    by_cases hc : ℓ = c
    · rw [if_pos hc, if_pos (show (c == ℓ) = true from by rw [hc]; exact beq_self_eq_true c)]
      push_cast
      omega
    · rw [if_neg hc, if_neg (show ¬ (c == ℓ) = true from
        fun hb => hc (eq_of_beq hb).symm)]
      push_cast
      omega

theorem initCount_eq (ans : List Char) (ℓ : Char) :
    initCount ans ℓ = (ans.count ℓ : Int) := by
  unfold initCount
  rw [initCount_foldl ℓ ans (fun _ => 0)]
  simp

theorem count_eq_countP_range (a : List Char) (ℓ : Char) :
    a.count ℓ = (List.range a.length).countP (fun i => a.get? i == some ℓ) := by
  induction a with
  | nil => simp
  | cons c t ih =>
    rw [List.length_cons, List.range_succ_eq_map, List.countP_cons, List.countP_map,
      List.count_cons]
    have hcomp : ((fun i => (c :: t).get? i == some ℓ) ∘ Nat.succ) =
        (fun i => t.get? i == some ℓ) := rfl
    rw [hcomp, ← ih]
    rfl

theorem countP_le_countP_add_count (p q : Nat → Bool) (ii : Nat)
    (hpq : ∀ i, i ≠ ii → p i = q i) :
    ∀ l : List Nat, l.countP p ≤ l.countP q + (if p ii then l.count ii else 0) := by
  intro l
  induction l with
  | nil => simp
  | cons j t ih =>
    by_cases hj : j = ii
    · subst hj
      rw [List.countP_cons, List.countP_cons, List.count_cons_self]
      by_cases hp : p j = true
      · rw [if_pos hp] at ih ⊢
        rw [if_pos hp]
        by_cases hq : q j = true
        · rw [if_pos hq]; omega
        · rw [if_neg hq]; omega
      · rw [if_neg hp] at ih ⊢
        rw [if_neg hp]
        by_cases hq : q j = true
        · rw [if_pos hq]; omega
        · rw [if_neg hq]; omega
    · rw [List.countP_cons, List.countP_cons, hpq j hj,
        List.count_cons_of_ne (fun h => hj h.symm)]
      by_cases hp : p ii = true
      · rw [if_pos hp] at ih ⊢
        by_cases hq : q j = true
        · rw [if_pos hq]; omega
        · rw [if_neg hq]; omega
      · rw [if_neg hp] at ih ⊢
        by_cases hq : q j = true
        · rw [if_pos hq]; omega
        · rw [if_neg hq]; omega

/-- Setting one cell of the pattern raises the marked count for `ℓ` by at
most one, and only when the guess letter at that position is `ℓ`. -/
theorem markedCount_set_le (g r : List Char) (ℓ c : Char) (ii : Nat) :
    markedCount g (r.set ii c) ℓ ≤
      markedCount g r ℓ + (if g.get? ii == some ℓ then 1 else 0) := by
  unfold markedCount
  have hpq : ∀ i, i ≠ ii →
      ((decide ((r.set ii c).get? i ≠ some ('.' : Char))) && (g.get? i == some ℓ)) =
        ((decide (r.get? i ≠ some ('.' : Char))) && (g.get? i == some ℓ)) := by
    intro i hne
    rw [List.get?_set_ne c r (Ne.symm hne)]
  have h3 := countP_le_countP_add_count _ _ ii hpq (List.range 5)
  refine le_trans h3 ?_
  have hcnt : (List.range 5).count ii ≤ 1 :=
    List.nodup_iff_count_le_one.mp (List.nodup_range 5) ii
  by_cases hp : ((decide ((r.set ii c).get? ii ≠ some ('.' : Char))) &&
      (g.get? ii == some ℓ)) = true
  · rw [if_pos hp, if_pos ((bool_and_parts hp).2)]
    omega
  · rw [if_neg hp]
    omega

theorem pass1_inv (g a : List Char) :
    ∀ (l : List Nat) (r : List Char) (cnt : Char → Int) (r' : List Char)
      (cnt' : Char → Int), pass1 g a l r cnt = some (r', cnt') →
      ∀ ℓ : Char,
        (markedCount g r' ℓ : Int) + cnt' ℓ ≤ (markedCount g r ℓ : Int) + cnt ℓ := by
  intro l
  induction l with
  | nil =>
    intro r cnt r' cnt' h ℓ
    simp only [pass1, Option.some.injEq, Prod.mk.injEq] at h
    rw [← h.1, ← h.2]
  | cons ii rest ih =>
    intro r cnt r' cnt' h ℓ
    cases hg : g.get? ii with
    | none =>
      cases ha : a.get? ii with
      | none => simp only [pass1, hg, ha] at h; exact absurd h (by simp)
      | some ai => simp only [pass1, hg, ha] at h; exact absurd h (by simp)
    | some gi =>
      cases ha : a.get? ii with
      | none => simp only [pass1, hg, ha] at h; exact absurd h (by simp)
      | some ai =>
        simp only [pass1, hg, ha] at h
        by_cases hei : gi = ai
        · rw [if_pos hei] at h
          have hrec := ih (r.set ii gi) (decr cnt ai) r' cnt' h ℓ
          have hset := markedCount_set_le g r ℓ gi ii
          by_cases hgl : gi = ℓ
          · rw [if_pos (show (g.get? ii == some ℓ) = true from by
              rw [hg, hgl]; exact beq_self_eq_true _)] at hset
            have hdecr : decr cnt ai ℓ = cnt ℓ - 1 := by
              simp only [decr]
              rw [if_pos (show ℓ = ai from by rw [← hgl]; exact hei)]
            rw [hdecr] at hrec
            omega
          · rw [if_neg (show ¬ (g.get? ii == some ℓ) = true from by
              intro hc
              rw [hg] at hc
              exact hgl (Option.some.inj (eq_of_beq hc)))] at hset
            have hdecr : decr cnt ai ℓ = cnt ℓ := by
              simp only [decr]
              rw [if_neg (fun hla => hgl (hei.trans hla.symm))]
            rw [hdecr] at hrec
            omega
        · rw [if_neg hei] at h
          exact ih r cnt r' cnt' h ℓ

theorem pass2_inv (g : List Char) :
    ∀ (l : List Nat) (r : List Char) (cnt : Char → Int) (r' : List Char)
      (cnt' : Char → Int), pass2 g l r cnt = some (r', cnt') →
      ∀ ℓ : Char,
        (markedCount g r' ℓ : Int) + cnt' ℓ ≤ (markedCount g r ℓ : Int) + cnt ℓ := by
  intro l
  induction l with
  | nil =>
    intro r cnt r' cnt' h ℓ
    simp only [pass2, Option.some.injEq, Prod.mk.injEq] at h
    rw [← h.1, ← h.2]
  | cons ii rest ih =>
    intro r cnt r' cnt' h ℓ
    cases hg : g.get? ii with
    | none => simp only [pass2, hg] at h; exact absurd h (by simp)
    | some gi =>
      simp only [pass2, hg] at h
      by_cases hpos : cnt gi > 0
      · rw [if_pos hpos] at h
        have hrec := ih (r.set ii gi.toLower) (decr cnt gi) r' cnt' h ℓ
        have hset := markedCount_set_le g r ℓ gi.toLower ii
        by_cases hgl : gi = ℓ
        · rw [if_pos (show (g.get? ii == some ℓ) = true from by
            rw [hg, hgl]; exact beq_self_eq_true _)] at hset
          have hdecr : decr cnt gi ℓ = cnt ℓ - 1 := by
            simp only [decr]
            rw [if_pos hgl.symm]
          rw [hdecr] at hrec
          omega
        · rw [if_neg (show ¬ (g.get? ii == some ℓ) = true from by
            intro hc
            rw [hg] at hc
            exact hgl (Option.some.inj (eq_of_beq hc)))] at hset
          have hdecr : decr cnt gi ℓ = cnt ℓ := by
            simp only [decr]
            rw [if_neg (fun hla => hgl hla.symm)]
          rw [hdecr] at hrec
          omega
      · rw [if_neg hpos] at h
        exact ih r cnt r' cnt' h ℓ

theorem pass2_nonneg (g : List Char) :
    ∀ (l : List Nat) (r : List Char) (cnt : Char → Int) (r' : List Char)
      (cnt' : Char → Int), pass2 g l r cnt = some (r', cnt') →
      (∀ x : Char, 0 ≤ cnt x) → ∀ x : Char, 0 ≤ cnt' x := by
  intro l
  induction l with
  | nil =>
    intro r cnt r' cnt' h hcnt x
    simp only [pass2, Option.some.injEq, Prod.mk.injEq] at h
    rw [← h.2]
    exact hcnt x
  | cons ii rest ih =>
    intro r cnt r' cnt' h hcnt x
    cases hg : g.get? ii with
    | none => simp only [pass2, hg] at h; exact absurd h (by simp)
    | some gi =>
      simp only [pass2, hg] at h
      by_cases hpos : cnt gi > 0
      · rw [if_pos hpos] at h
        refine ih (r.set ii gi.toLower) (decr cnt gi) r' cnt' h ?_ x
        intro y
        simp only [decr]
        by_cases hy : y = gi
        · rw [if_pos hy, hy]
          omega
        · rw [if_neg hy]
          exact hcnt y
      · rw [if_neg hpos] at h
        exact ih r cnt r' cnt' h hcnt x

theorem pass1_cnt (g a : List Char) :
    ∀ (l : List Nat) (r : List Char) (cnt : Char → Int) (r' : List Char)
      (cnt' : Char → Int), pass1 g a l r cnt = some (r', cnt') →
      ∀ ℓ : Char,
        cnt' ℓ = cnt ℓ -
          (l.countP (fun i => (g.get? i == some ℓ) && (a.get? i == some ℓ)) : Int) := by
  intro l
  induction l with
  | nil =>
    intro r cnt r' cnt' h ℓ
    simp only [pass1, Option.some.injEq, Prod.mk.injEq] at h
    rw [← h.2]
    simp
  | cons ii rest ih =>
    intro r cnt r' cnt' h ℓ
    cases hg : g.get? ii with
    | none =>
      cases ha : a.get? ii with
      | none => simp only [pass1, hg, ha] at h; exact absurd h (by simp)
      | some ai => simp only [pass1, hg, ha] at h; exact absurd h (by simp)
    | some gi =>
      cases ha : a.get? ii with
      | none => simp only [pass1, hg, ha] at h; exact absurd h (by simp)
      | some ai =>
        simp only [pass1, hg, ha] at h
        rw [List.countP_cons]
        by_cases hei : gi = ai
        · rw [if_pos hei] at h
          have hrec := ih (r.set ii gi) (decr cnt ai) r' cnt' h ℓ
          by_cases hal : ai = ℓ
          · rw [if_pos (show ((g.get? ii == some ℓ) && (a.get? ii == some ℓ)) = true from by
              rw [hg, ha, hei, hal]
              simp)]
            have hdecr : decr cnt ai ℓ = cnt ℓ - 1 := by
              simp only [decr]
              rw [if_pos hal.symm]
            rw [hdecr] at hrec
            push_cast
            omega
          · rw [if_neg (show ¬ ((g.get? ii == some ℓ) && (a.get? ii == some ℓ)) = true from by
              intro hc
              rw [hg, ha] at hc
              exact hal (Option.some.inj (eq_of_beq (bool_and_parts hc).2)))]
            have hdecr : decr cnt ai ℓ = cnt ℓ := by
              simp only [decr]
              rw [if_neg (fun hla => hal hla.symm)]
            rw [hdecr] at hrec
            omega
        · rw [if_neg hei] at h
          have hrec := ih r cnt r' cnt' h ℓ
          rw [if_neg (show ¬ ((g.get? ii == some ℓ) && (a.get? ii == some ℓ)) = true from by
            intro hc
            rw [hg, ha] at hc
            have h1 := Option.some.inj (eq_of_beq (bool_and_parts hc).1)
            have h2 := Option.some.inj (eq_of_beq (bool_and_parts hc).2)
            exact hei (h1.trans h2.symm))]
          omega

theorem markedCount_replicate (g : List Char) (ℓ : Char) :
    markedCount g (List.replicate 5 '.') ℓ = 0 := by
  unfold markedCount
  rw [List.countP_eq_zero]
  intro i hi
  have h5 : i < 5 := List.mem_range.mp hi
  intro hcontra
  have h' := (bool_and_parts hcontra).1
  rw [decide_eq_true_eq] at h'
  apply h'
  rw [show List.replicate 5 ('.' : Char) = ['.', '.', '.', '.', '.'] from rfl]
  interval_cases i <;> rfl

/-- Every canonical uppercase letter differs from the ABSENT symbol, and so
does its lowercase form. -/
theorem upper_mem_facts : ∀ c ∈ upperAlphabet, c ≠ '.' ∧ c.toLower ≠ '.' := by
  decide

/-- Claim C7: in any pattern returned by `score` on five-letter uppercase
words, the number of positions carrying an exact-match or wrong-position
mark for a letter `ℓ` never exceeds the number of occurrences of `ℓ` in the
answer.  (A position marked for `ℓ` shows either `ℓ` itself — exact match —
or its lowercase form — present in wrong position.) -/
theorem C7_letter_count_conservation (g a : List Char) (hg : g.length = 5)
    (ha : a.length = 5) (hgU : ∀ c ∈ g, c ∈ upperAlphabet) (ℓ : Char)
    (p : List Char) (hp : score g a = some p) :
    (List.range 5).countP (fun i => (g.get? i == some ℓ) &&
      ((p.get? i == some ℓ) || (p.get? i == some ℓ.toLower))) ≤ a.count ℓ := by
  cases h1 : pass1 g a (List.range 5) (List.replicate 5 '.') (initCount a) with
  | none => rw [score, h1] at hp; exact absurd hp (by simp)
  | some st1 =>
    obtain ⟨r1, c1⟩ := st1
    cases h2 : pass2 g (List.range 5) r1 c1 with
    | none =>
      rw [score, h1] at hp
      simp only [h2] at hp
      exact absurd hp (by simp)
    | some st2 =>
      obtain ⟨r2, c2⟩ := st2
      rw [score, h1] at hp
      simp only [h2, Option.some.injEq] at hp
      subst hp
      have hbridge : (List.range 5).countP (fun i => (g.get? i == some ℓ) &&
          ((r2.get? i == some ℓ) || (r2.get? i == some ℓ.toLower))) ≤
          markedCount g r2 ℓ := by
        unfold markedCount
        apply List.countP_mono_left
        intro i hi hpi
        have hgi := (bool_and_parts hpi).1
        have hor := (bool_and_parts hpi).2
        have hmem : ℓ ∈ g := List.get?_mem (eq_of_beq hgi)
        have hU := upper_mem_facts ℓ (hgU ℓ hmem)
        rw [Bool.and_eq_true]
        refine ⟨?_, hgi⟩
        rcases bool_or_parts hor with hcase | hcase
        · rw [eq_of_beq hcase]
          simp [hU.1]
        · rw [eq_of_beq hcase]
          simp [hU.2]
      have hc1 : ∀ x : Char, 0 ≤ c1 x := by
        intro x
        have hcnt := pass1_cnt g a (List.range 5) (List.replicate 5 '.')
          (initCount a) r1 c1 h1 x
        rw [initCount_eq a x] at hcnt
        have hmono : (List.range 5).countP
            (fun i => (g.get? i == some x) && (a.get? i == some x)) ≤
            (List.range 5).countP (fun i => a.get? i == some x) :=
          List.countP_mono_left (fun y _ hpy => (bool_and_parts hpy).2)
        have hcount : (List.range 5).countP (fun i => a.get? i == some x) =
            a.count x := by
          rw [count_eq_countP_range a x, ha]
        omega
      have hnn := pass2_nonneg g (List.range 5) r1 c1 r2 c2 h2 hc1 ℓ
      have h21 := pass2_inv g (List.range 5) r1 c1 r2 c2 h2 ℓ
      have h10 := pass1_inv g a (List.range 5) (List.replicate 5 '.')
        (initCount a) r1 c1 h1 ℓ
      have hM0 := markedCount_replicate g ℓ
      have hinit := initCount_eq a ℓ
      omega

/-- Witness for C7: the conservation bound at the concrete pair
`(DRINK, DANDY)` and the letter `'D'`. -/
theorem C7_witness :
    (List.range 5).countP (fun i =>
      ((['D', 'R', 'I', 'N', 'K'] : List Char).get? i == some 'D') &&
      (((['d', '.', '.', 'n', '.'] : List Char).get? i == some 'D') ||
        ((['d', '.', '.', 'n', '.'] : List Char).get? i == some ('D' : Char).toLower))) ≤
      (['D', 'A', 'N', 'D', 'Y'] : List Char).count 'D' :=
  C7_letter_count_conservation ['D', 'R', 'I', 'N', 'K'] ['D', 'A', 'N', 'D', 'Y']
    rfl rfl (by decide) 'D' ['d', '.', '.', 'n', '.'] rfl

end Autowordl
